import Mathlib

set_option maxHeartbeats 1000000

/-! Verification development for `find_empty_pages.py`, a DOCX empty-page
finder and remover.  The script parses `word/document.xml` with
`xml.etree.ElementTree`, classifies body elements with three predicates
(`is_empty_paragraph`, `has_page_break`, `has_section_break`), scans the
body children for runs of consecutive empty paragraphs
(`find_empty_page_regions`), and deletes selected runs
(`delete_empty_regions`).

The XML tree is embedded as the inductive `Elem` below: an ElementTree
element has a fully-expanded tag such as
`{http://...wordprocessingml/2006/main}p`, an attribute map, optional text
content and a list of children.  Curly braces inside string literals are
written with the `\x7b` / `\x7d` escapes. -/

inductive Elem where
  | mk (tag : String) (attrs : List (String × String)) (text : Option String) (children : List Elem)
deriving Repr

def Elem.tag : Elem → String
  | .mk t _ _ _ => t

def Elem.attrs : Elem → List (String × String)
  | .mk _ a _ _ => a

def Elem.text : Elem → Option String
  | .mk _ _ x _ => x

def Elem.children : Elem → List Elem
  | .mk _ _ _ c => c

mutual
def Elem.beq : Elem → Elem → Bool
  | .mk t1 a1 x1 c1, .mk t2 a2 x2 c2 => t1 == t2 && a1 == a2 && x1 == x2 && Elem.beqList c1 c2

def Elem.beqList : List Elem → List Elem → Bool
  | [], [] => true
  | e :: es, f :: fs => Elem.beq e f && Elem.beqList es fs
  | _, _ => false
end

mutual
theorem Elem.beq_correct : ∀ e f : Elem, Elem.beq e f = true ↔ e = f
  | .mk t1 a1 x1 c1, .mk t2 a2 x2 c2 => by
    simp only [Elem.beq, Bool.and_eq_true, beq_iff_eq, Elem.mk.injEq]
    rw [Elem.beqList_correct c1 c2]
    tauto

theorem Elem.beqList_correct : ∀ es fs : List Elem, Elem.beqList es fs = true ↔ es = fs
  | [], [] => by simp [Elem.beqList]
  | [], _ :: _ => by simp [Elem.beqList]
  | _ :: _, [] => by simp [Elem.beqList]
  | e :: es, f :: fs => by
    simp only [Elem.beqList, Bool.and_eq_true, List.cons.injEq]
    rw [Elem.beq_correct e f, Elem.beqList_correct es fs]
end

instance : DecidableEq Elem := fun e f => decidable_of_iff _ (Elem.beq_correct e f)

/- All proper descendants of an element in document (preorder) order.
This is the node set ElementTree's `findall('.//tag')` and `find('.//tag')`
traverse. -/
mutual
def descList : Elem → List Elem
  | .mk _ _ _ children => descListAux children

def descListAux : List Elem → List Elem
  | [] => []
  | c :: cs => c :: (descList c ++ descListAux cs)
end

/-- The WordprocessingML namespace URI bound to the `w` placeholder in the
script's `NS` dictionary. -/
def wNS : String := "http://schemas.openxmlformats.org/wordprocessingml/2006/main"

/-- Expanded ElementTree name: `wTag "p"` is the brace-wrapped namespace URI
followed by the local name, as ElementTree stores tags after parsing. -/
def wTag (l : String) : String := "\x7b" ++ wNS ++ "\x7d" ++ l

def splitOnCharAux (c : Char) : List Char → List Char → List (List Char)
  | [], acc => [acc.reverse]
  | a :: l, acc => if a = c then acc.reverse :: splitOnCharAux c l [] else splitOnCharAux c l (a :: acc)

/-- Split a character list on a separator character, mirroring Python's
`str.split(sep)` (so `split('}')[-1]` is the last chunk of the result). -/
def splitOnChar (c : Char) (l : List Char) : List (List Char) := splitOnCharAux c l []

/-- Local part of an expanded tag: the script computes
`para.tag.split('}')[-1] if '}' in para.tag else para.tag`. -/
def tagLocal (t : String) : String :=
  if t.data.contains '\x7d' then String.mk ((splitOnChar '\x7d' t.data).getLastD t.data) else t

/-- Characters stripped by Python's `str.strip()` (ASCII whitespace). -/
def pyIsSpace (c : Char) : Bool :=
  c == ' ' || c == '\t' || c == '\n' || c == '\x0b' || c == '\x0c' || c == '\r'

/-- Python `str.strip()`: drop leading and trailing whitespace. -/
def pyStrip (s : String) : String :=
  String.mk (((s.data.dropWhile pyIsSpace).reverse.dropWhile pyIsSpace).reverse)

/-- ElementTree `findall('.//tag')`: all descendants with the given expanded
tag, in document order. -/
def findallDesc (tag : String) (e : Elem) : List Elem :=
  (descList e).filter (fun d => d.tag == tag)

/-- ElementTree `find('.//tag')`: first descendant with the given expanded
tag in document order, if any. -/
def findFirstDesc (tag : String) (e : Elem) : Option Elem :=
  (descList e).find? (fun d => d.tag == tag)

/-- ElementTree `elem.get(key)`: attribute lookup. -/
def attrLookup (e : Elem) (key : String) : Option String :=
  (e.attrs.find? (fun kv => kv.1 == key)).map (fun kv => kv.2)

/-- Source `get_paragraph_text`: concatenate the text of every descendant
`w:t` element in document order, then strip surrounding whitespace.  (The
Python loop skips runs whose `.text` is `None` or empty; appending the empty
string for those is the same concatenation.) -/
def get_paragraph_text (para : Elem) : String :=
  pyStrip ((findallDesc (wTag "t") para).foldl (fun acc t => acc ++ t.text.getD "") "")

/-- Source `is_empty_paragraph`: the stripped concatenated text has length
zero. -/
def is_empty_paragraph (para : Elem) : Bool :=
  (get_paragraph_text para).length == 0

/-- Source `has_page_break`: some descendant `w:br` carries the attribute
`w:type="page"`. -/
def has_page_break (para : Elem) : Bool :=
  (findallDesc (wTag "br") para).any (fun br => attrLookup br (wTag "type") == some "page")

/-- Source `has_section_break`: the first descendant `w:sectPr`, when
present, has a first descendant `w:type` whose `w:val` attribute is one of
`nextPage`, `oddPage`, `evenPage`.  A missing `w:sectPr`, missing `w:type`,
missing `w:val`, or any other value (such as `continuous`) yields `false`. -/
def has_section_break (para : Elem) : Bool :=
  match findFirstDesc (wTag "sectPr") para with
  | some sect =>
    match findFirstDesc (wTag "type") sect with
    | some ty =>
      match attrLookup ty (wTag "val") with
      | some v => ["nextPage", "oddPage", "evenPage"].contains v
      | none => false
    | none => false
  | none => false

/-- One record of the `empty_regions` list built by
`find_empty_page_regions`: the Python dict with keys `start_index`,
`end_index`, `count`, `indices`.  `start_index` and `end_index` are
`Option`s because Python's `current_empty_start` starts as `None` and
`current_empty_indices[-1]` is only evaluated on a nonempty list (with the
default threshold 15 a region is only built from a nonempty run, so both
are always `some` in practice). -/
structure Region where
  start_index : Option Nat
  end_index : Option Nat
  count : Nat
  indices : List Nat
deriving Repr, DecidableEq

/-- The loop state of `find_empty_page_regions`: regions emitted so far plus
`current_empty_start`, `current_empty_count`, `current_empty_indices`. -/
structure ScanState where
  regions : List Region
  start : Option Nat
  count : Nat
  indices : List Nat
deriving Repr, DecidableEq

/-- The region-flushing step the script repeats three times: when the
current run length reaches the minimum, append a region built from the run
bookkeeping. -/
def emitRegions (minE : Nat) (st : ScanState) : List Region :=
  if st.count ≥ minE then
    st.regions ++ [{ start_index := st.start, end_index := st.indices.getLast?,
                     count := st.count, indices := st.indices }]
  else st.regions

/-- Flush (emit if long enough) and reset the run bookkeeping, as both the
non-empty-paragraph branch and the non-paragraph branch of the loop do. -/
def flushState (minE : Nat) (st : ScanState) : ScanState :=
  { regions := emitRegions minE st, start := none, count := 0, indices := [] }

def scanInit : ScanState := { regions := [], start := none, count := 0, indices := [] }

/-- One iteration of the loop in `find_empty_page_regions` over
`enumerate(paragraphs)`: a paragraph that is empty and has no page-forcing
section break extends the current run; anything else flushes and resets. -/
def scanStep (minE : Nat) (st : ScanState) (i : Nat) (para : Elem) : ScanState :=
  if tagLocal para.tag == "p" then
    if is_empty_paragraph para && !(has_section_break para) then
      { st with
        start := match st.start with | none => some i | some s => some s,
        count := st.count + 1,
        indices := st.indices ++ [i] }
    else
      flushState minE st
  else
    flushState minE st

def scanGo (minE : Nat) (st : ScanState) (i : Nat) : List Elem → ScanState
  | [] => st
  | e :: es => scanGo minE (scanStep minE st i e) (i + 1) es

/-- Source `find_empty_page_regions`, scan part: run the loop over the body
children (`paragraphs = list(body)`) and apply the final end-of-document
check. -/
def find_empty_page_regions (paragraphs : List Elem) (minE : Nat) : List Region :=
  emitRegions minE (scanGo minE scanInit 0 paragraphs)

example : find_empty_page_regions [] 15 = [] := by decide

example :
    find_empty_page_regions
      [Elem.mk (wTag "p") [] none [], Elem.mk (wTag "p") [] none []] 2 =
      [{ start_index := some 0, end_index := some 1, count := 2, indices := [0, 1] }] := by
  decide

/-- Tag of the document body element. -/
def wBodyTag : String := wTag "body"

/-- The two shapes of value `find_empty_page_regions` can return: the early
return `return [], tree, root, body` when `root.find('.//w:body')` is
`None` (a 4-tuple whose last component is that `None`), and the normal
`return empty_regions, tree, root, body, paragraphs` (a 5-tuple).  In the
embedding `tree` and `root` coincide, as `tree.getroot()` is the only use
of the tree object the scan makes. -/
inductive FindResult where
  | four (regions : List Region) (tree root : Elem) (body : Option Elem)
  | five (regions : List Region) (tree root body : Elem) (paragraphs : List Elem)
deriving Repr, DecidableEq

/-- Number of components of the returned tuple. -/
def FindResult.arity : FindResult → Nat
  | .four _ _ _ _ => 4
  | .five _ _ _ _ _ => 5

/-- Source `find_empty_page_regions` from the parsed root element: locate
the body, then scan its children; without a body, return the 4-tuple. -/
def find_empty_page_regions_full (root : Elem) (minE : Nat) : FindResult :=
  match findFirstDesc wBodyTag root with
  | none => .four [] root root none
  | some body => .five (find_empty_page_regions body.children minE) root root body body.children

/-- The 5-way destructuring
`empty_regions, tree, root, body, paragraphs = result` in `process_docx`:
it succeeds only on a 5-tuple; unpacking the 4-tuple raises `ValueError`,
modelled as `none`. -/
def process_docx_unpack (root : Elem) (minE : Nat) :
    Option (List Region × Elem × Elem × Elem × List Elem) :=
  match find_empty_page_regions_full root minE with
  | .five rs t r b ps => some (rs, t, r, b, ps)
  | .four _ _ _ _ => none

/-- Remove the first occurrence of `x`, by the identity comparison
`body.remove(elem)` performs; when `x` is absent this is the no-op the
script's `except ValueError: pass` produces. -/
def removeFirst {α : Type} [DecidableEq α] (x : α) : List α → List α
  | [] => []
  | a :: l => if a = x then l else a :: removeFirst x l

/-- All member indices of a list of regions (`indices_to_delete.update(...)`
accumulates exactly these). -/
def regionIndices (regions : List Region) : List Nat :=
  (regions.map Region.indices).flatten

def insertDesc (i : Nat) : List Nat → List Nat
  | [] => [i]
  | a :: l => if a ≤ i then i :: a :: l else a :: insertDesc i l

/-- Descending insertion sort, modelling `sorted(s, reverse=True)`. -/
def sortDesc (l : List Nat) : List Nat := l.foldr insertDesc []

/-- The iteration order of the deletion loop: the distinct indices of the
Python set `indices_to_delete`, sorted in reverse. -/
def indicesToDelete (regions : List Region) : List Nat :=
  sortDesc (regionIndices regions).dedup

/-- Source `delete_empty_regions`, tree-mutation part: for each scheduled
index in descending order, look up the element in the original `paragraphs`
snapshot and remove it from `body` by identity, ignoring absent elements.
(Namespace re-registration and `tree.write` touch no body element and are
modelled separately by `rewriteNamespaceDecls`.) -/
def delete_empty_regions {α : Type} [DecidableEq α]
    (regions_to_delete : List Region) (body paragraphs : List α) : List α :=
  (indicesToDelete regions_to_delete).foldl
    (fun b i =>
      match paragraphs.get? i with
      | some elem => removeFirst elem b
      | none => b)
    body

/-- The hard-coded prefix table the script registers right before writing
(`namespaces_to_register` in the source). -/
def namespaces_to_register : List (String × String) :=
  [("w", "http://schemas.openxmlformats.org/wordprocessingml/2006/main"),
   ("r", "http://schemas.openxmlformats.org/officeDocument/2006/relationships"),
   ("o", "urn:schemas-microsoft-com:office:office"),
   ("v", "urn:schemas-microsoft-com:vml"),
   ("w10", "urn:schemas-microsoft-com:office:word"),
   ("wp", "http://schemas.openxmlformats.org/drawingml/2006/wordprocessingDrawing"),
   ("wps", "http://schemas.microsoft.com/office/word/2010/wordprocessingShape"),
   ("wpg", "http://schemas.microsoft.com/office/word/2010/wordprocessingGroup"),
   ("mc", "http://schemas.openxmlformats.org/markup-compatibility/2006"),
   ("wp14", "http://schemas.microsoft.com/office/word/2010/wordprocessingDrawing"),
   ("w14", "http://schemas.microsoft.com/office/word/2010/wordml"),
   ("w15", "http://schemas.microsoft.com/office/word/2012/wordml")]

/-- Namespace URI of an expanded ElementTree name, when it has one. -/
def uriOfName (s : String) : Option String :=
  if s.data.headD ' ' = '\x7b' then
    some (String.mk ((splitOnChar '\x7d' s.data.tail).headD []))
  else none

/-- Namespace URIs mentioned by one element (its tag and attribute names). -/
def elemURIs (e : Elem) : List String :=
  (uriOfName e.tag).toList ++ e.attrs.filterMap (fun kv => uriOfName kv.1)

/-- Namespace URIs used anywhere in a tree. -/
def treeURIs (root : Elem) : List String :=
  elemURIs root ++ (descList root).foldr (fun e acc => elemURIs e ++ acc) []

/-- Namespace declarations the rewritten document carries.  Modelled from
`xml.etree.ElementTree` serialization semantics, which decide this part of
the script's behaviour: parsing discards the source document's
`xmlns:...` declarations (names are stored fully expanded), and
`tree.write` emits one declaration per namespace URI actually used by some
element in the tree, using the registered short form when the URI is in the
registration table and a generated `ns...` form otherwise.  Declarations of
the source document that no remaining element uses are therefore never
reproduced. -/
def rewriteNamespaceDecls (registered : List (String × String)) (root : Elem) : List (String × String) :=
  (treeURIs root).dedup.map (fun uri =>
    (match registered.find? (fun pu => pu.2 == uri) with
     | some pu => pu.1
     | none => "ns0", uri))

/-- Build an element in the WordprocessingML namespace. -/
def wEl (l : String) (attrs : List (String × String)) (children : List Elem) : Elem :=
  .mk (wTag l) attrs none children

/-- Text run `w:r` containing one `w:t` with the given text. -/
def textRun (s : String) : Elem :=
  wEl "r" [] [Elem.mk (wTag "t") [] (some s) []]

/-- Paragraph with the given visible text (empty list of runs if `""`). -/
def paraWithText (s : String) : Elem :=
  wEl "p" [] [textRun s]

/-- Empty paragraph distinguished from its peers by an id attribute, the
way distinct but textually identical XML nodes are distinct objects in
ElementTree. -/
def emptyParaId (n : Nat) : Elem :=
  wEl "p" [(wTag "dummyId", toString n)] []

/-- Empty paragraph carrying an explicit page break `<w:br w:type="page"/>`. -/
def pageBreakPara : Elem :=
  wEl "p" [] [wEl "r" [] [wEl "br" [(wTag "type", "page")] []]]

/-- Empty paragraph carrying a section break of the given type, shaped as
in a real document: `w:p` over `w:pPr` over `w:sectPr` over a `w:type`
element whose `w:val` attribute is `v`. -/
def sectBreakPara (v : String) : Elem :=
  wEl "p" [] [wEl "pPr" [] [wEl "sectPr" [] [wEl "type" [(wTag "val", v)] []]]]

/-- Paragraph containing only a drawing and no text run. -/
def drawingPara : Elem :=
  wEl "p" [] [wEl "r" [] [wEl "drawing" [] []]]

example : has_page_break pageBreakPara = true := by decide

example : has_section_break (sectBreakPara "nextPage") = true := by decide

example : has_section_break (sectBreakPara "continuous") = false := by decide

example : is_empty_paragraph (paraWithText "hello") = false := by decide

example : is_empty_paragraph (paraWithText "  ") = true := by decide

/-- Whether an element extends the current run of the threshold scan: a
paragraph (by local tag name) whose visible text is empty and which carries
no page-forcing section break.  One loop iteration of
`find_empty_page_regions` depends on the element only through this bit. -/
def countable (e : Elem) : Bool :=
  tagLocal e.tag == "p" && (is_empty_paragraph e && !(has_section_break e))

/-- The scan step as a function of the `countable` bit alone. -/
def stepB (minE : Nat) (st : ScanState) (i : Nat) (b : Bool) : ScanState :=
  if b then
    { st with
      start := match st.start with | none => some i | some s => some s,
      count := st.count + 1,
      indices := st.indices ++ [i] }
  else flushState minE st

def goB (minE : Nat) (st : ScanState) (i : Nat) : List Bool → ScanState
  | [] => st
  | b :: bs => goB minE (stepB minE st i b) (i + 1) bs

/-- The whole scan as a function of the per-element `countable` bits. -/
def findB (minE : Nat) (bs : List Bool) : List Region :=
  emitRegions minE (goB minE scanInit 0 bs)

theorem scanStep_eq_stepB (minE : Nat) (st : ScanState) (i : Nat) (e : Elem) :
    scanStep minE st i e = stepB minE st i (countable e) := by
  unfold scanStep stepB countable
  cases h1 : (tagLocal e.tag == "p") <;>
    cases h2 : (is_empty_paragraph e && !(has_section_break e)) <;> simp [h1, h2]

theorem scanGo_eq_goB (minE : Nat) :
    ∀ (l : List Elem) (st : ScanState) (i : Nat),
      scanGo minE st i l = goB minE st i (l.map countable)
  | [], _, _ => rfl
  | e :: es, st, i => by
    simp only [scanGo, goB, List.map, scanStep_eq_stepB]
    exact scanGo_eq_goB minE es _ _

theorem find_eq_findB (paragraphs : List Elem) (minE : Nat) :
    find_empty_page_regions paragraphs minE = findB minE (paragraphs.map countable) := by
  unfold find_empty_page_regions findB
  rw [scanGo_eq_goB]

/-- Run-length decomposition of the boolean body view: the lengths of the
maximal runs of `true` between the `false` separators (always one entry
more than there are separators). -/
def toCounts : List Bool → List Nat
  | [] => [0]
  | false :: bs => 0 :: toCounts bs
  | true :: bs =>
    match toCounts bs with
    | [] => [1]
    | c :: cs => (c + 1) :: cs

/-- Materialize run lengths back into a boolean list. -/
def fromCounts : List Nat → List Bool
  | [] => []
  | [c] => List.replicate c true
  | c :: cs => List.replicate c true ++ false :: fromCounts cs

theorem fromCounts_cons_cons (c c2 : Nat) (cs : List Nat) :
    fromCounts (c :: c2 :: cs) = List.replicate c true ++ false :: fromCounts (c2 :: cs) := rfl

theorem toCounts_ne_nil : ∀ bs : List Bool, toCounts bs ≠ []
  | [] => by simp [toCounts]
  | false :: bs => by simp [toCounts]
  | true :: bs => by
    unfold toCounts
    cases h : toCounts bs <;> simp

theorem fromCounts_toCounts : ∀ bs : List Bool, fromCounts (toCounts bs) = bs
  | [] => rfl
  | false :: bs => by
    have ih := fromCounts_toCounts bs
    unfold toCounts
    cases h : toCounts bs with
    | nil => exact absurd h (toCounts_ne_nil bs)
    | cons c cs =>
      rw [h] at ih
      simp [fromCounts, ih]
  | true :: bs => by
    have ih := fromCounts_toCounts bs
    unfold toCounts
    cases h : toCounts bs with
    | nil => exact absurd h (toCounts_ne_nil bs)
    | cons c cs =>
      rw [h] at ih
      cases cs with
      | nil =>
        simp only [fromCounts] at ih ⊢
        rw [List.replicate_succ, ih]
      | cons c2 cs2 =>
        rw [fromCounts_cons_cons, List.replicate_succ]
        rw [fromCounts_cons_cons] at ih
        simp [ih]

/-- Length of the boolean list a run-length list denotes. -/
def lenF : List Nat → Nat
  | [] => 0
  | [c] => c
  | c :: cs => c + 1 + lenF cs

theorem lenF_cons_cons (c c2 : Nat) (cs : List Nat) :
    lenF (c :: c2 :: cs) = c + 1 + lenF (c2 :: cs) := rfl

theorem length_fromCounts : ∀ cs : List Nat, (fromCounts cs).length = lenF cs
  | [] => rfl
  | [c] => by simp [fromCounts, lenF]
  | c :: c2 :: cs => by
    rw [fromCounts_cons_cons, lenF_cons_cons]
    simp [length_fromCounts (c2 :: cs)]
    omega

theorem lenF_toCounts : ∀ bs : List Bool, lenF (toCounts bs) = bs.length
  | [] => rfl
  | false :: bs => by
    have ih := lenF_toCounts bs
    unfold toCounts
    cases h : toCounts bs with
    | nil => exact absurd h (toCounts_ne_nil bs)
    | cons c cs =>
      rw [h] at ih
      simp only [lenF_cons_cons, List.length_cons]
      omega
  | true :: bs => by
    have ih := lenF_toCounts bs
    unfold toCounts
    cases h : toCounts bs with
    | nil => exact absurd h (toCounts_ne_nil bs)
    | cons c cs =>
      rw [h] at ih
      cases cs with
      | nil => simp only [lenF] at ih ⊢; simp; omega
      | cons c2 cs2 =>
        rw [lenF_cons_cons] at ih ⊢
        simp only [List.length_cons]
        omega

/-- Region built from a maximal run of `c` countable elements starting at
body position `n`, exactly as the scan's flush step builds it. -/
def mkRegion (n c : Nat) : Region :=
  { start_index := some n, end_index := some (n + c - 1), count := c, indices := List.range' n c }

/-- Regions the threshold scan yields on a body whose run-length
decomposition, starting at position `n`, is `cs`: one region per run of
length at least the minimum. -/
def regionsOfCounts (minE n : Nat) : List Nat → List Region
  | [] => []
  | c :: cs => (if minE ≤ c then [mkRegion n c] else []) ++ regionsOfCounts minE (n + c + 1) cs

theorem regionsOfCounts_cons (minE n c : Nat) (cs : List Nat) :
    regionsOfCounts minE n (c :: cs) =
      (if minE ≤ c then [mkRegion n c] else []) ++ regionsOfCounts minE (n + c + 1) cs := rfl

theorem goB_append (minE : Nat) :
    ∀ (l1 l2 : List Bool) (st : ScanState) (i : Nat),
      goB minE st i (l1 ++ l2) = goB minE (goB minE st i l1) (i + l1.length) l2
  | [], l2, st, i => by simp [goB]
  | b :: bs, l2, st, i => by
    show goB minE (stepB minE st i b) (i + 1) (bs ++ l2) =
      goB minE (goB minE (stepB minE st i b) (i + 1) bs) (i + (bs.length + 1)) l2
    rw [goB_append minE bs l2]
    have h : i + (bs.length + 1) = i + 1 + bs.length := by omega
    rw [h]

theorem goB_true_run (minE : Nat) :
    ∀ (c : Nat) (rs : List Region) (s j : Nat) (idxs : List Nat) (n : Nat),
      goB minE ⟨rs, some s, j, idxs⟩ n (List.replicate c true) =
        ⟨rs, some s, j + c, idxs ++ List.range' n c⟩
  | 0, rs, s, j, idxs, n => by simp [goB]
  | c + 1, rs, s, j, idxs, n => by
    rw [List.replicate_succ]
    show goB minE ⟨rs, some s, j + 1, idxs ++ [n]⟩ (n + 1) (List.replicate c true) = _
    rw [goB_true_run minE c rs s (j + 1) (idxs ++ [n]) (n + 1)]
    rw [List.range'_succ]
    have hcount : j + 1 + c = j + (c + 1) := by omega
    simp [hcount]

theorem goB_reset_run (minE : Nat) (rs : List Region) (n c : Nat) :
    goB minE ⟨rs, none, 0, []⟩ n (List.replicate c true) =
      ⟨rs, if c = 0 then none else some n, c, List.range' n c⟩ := by
  cases c with
  | zero => simp [goB]
  | succ c =>
    rw [List.replicate_succ]
    show goB minE ⟨rs, some n, 1, [n]⟩ (n + 1) (List.replicate c true) = _
    rw [goB_true_run minE c rs n 1 [n] (n + 1)]
    rw [List.range'_succ]
    have hcount : 1 + c = c + 1 := by omega
    simp [hcount]

theorem emitRegions_run (minE : Nat) (hmin : 1 ≤ minE) (rs : List Region) (n c : Nat) :
    emitRegions minE ⟨rs, if c = 0 then none else some n, c, List.range' n c⟩ =
      rs ++ (if minE ≤ c then [mkRegion n c] else []) := by
  unfold emitRegions mkRegion
  by_cases h : minE ≤ c
  · have hc : ¬(c = 0) := by omega
    simp [ge_iff_le, h, hc, List.getLast?_range']
  · simp [ge_iff_le, h]

theorem goB_fromCounts (minE : Nat) (hmin : 1 ≤ minE) :
    ∀ (cs : List Nat) (rs : List Region) (n : Nat),
      emitRegions minE (goB minE ⟨rs, none, 0, []⟩ n (fromCounts cs)) =
        rs ++ regionsOfCounts minE n cs
  | [], rs, n => by
    simp [fromCounts, goB, emitRegions, regionsOfCounts]
    omega
  | [c], rs, n => by
    show emitRegions minE (goB minE ⟨rs, none, 0, []⟩ n (List.replicate c true)) = _
    rw [goB_reset_run, emitRegions_run minE hmin]
    simp [regionsOfCounts]
  | c :: c2 :: cs, rs, n => by
    rw [fromCounts_cons_cons, goB_append, goB_reset_run]
    show emitRegions minE
        (goB minE (stepB minE _ _ false) (n + (List.replicate c true).length + 1)
          (fromCounts (c2 :: cs))) = _
    simp only [stepB, Bool.false_eq_true, if_neg (by simp : ¬(False : Prop)), List.length_replicate]
    show emitRegions minE
        (goB minE (flushState minE ⟨rs, if c = 0 then none else some n, c, List.range' n c⟩)
          (n + c + 1) (fromCounts (c2 :: cs))) = _
    unfold flushState
    rw [emitRegions_run minE hmin]
    rw [goB_fromCounts minE hmin (c2 :: cs) _ (n + c + 1)]
    simp [regionsOfCounts, List.append_assoc]

theorem findB_fromCounts (minE : Nat) (hmin : 1 ≤ minE) (cs : List Nat) :
    findB minE (fromCounts cs) = regionsOfCounts minE 0 cs := by
  unfold findB scanInit
  rw [goB_fromCounts minE hmin cs [] 0]
  simp

theorem findB_regionsOfCounts (minE : Nat) (hmin : 1 ≤ minE) (bs : List Bool) :
    findB minE bs = regionsOfCounts minE 0 (toCounts bs) := by
  conv_lhs => rw [← fromCounts_toCounts bs]
  exact findB_fromCounts minE hmin (toCounts bs)

theorem regionsOfCounts_shape (minE : Nat) :
    ∀ (cs : List Nat) (n : Nat) (r : Region), r ∈ regionsOfCounts minE n cs →
      ∃ s c, minE ≤ c ∧ n ≤ s ∧ r = mkRegion s c
  | [], _, _, h => by simp [regionsOfCounts] at h
  | c :: cs, n, r, h => by
    rw [regionsOfCounts_cons, List.mem_append] at h
    rcases h with h | h
    · by_cases hc : minE ≤ c
      · rw [if_pos hc] at h
        simp only [List.mem_singleton] at h
        exact ⟨n, c, hc, le_refl n, h⟩
      · rw [if_neg hc] at h
        simp at h
    · obtain ⟨s, c', h1, h2, h3⟩ := regionsOfCounts_shape minE cs (n + c + 1) r h
      exact ⟨s, c', h1, by omega, h3⟩

theorem regionsOfCounts_bound (minE : Nat) :
    ∀ (cs : List Nat) (n : Nat) (r : Region), r ∈ regionsOfCounts minE n cs →
      ∀ i ∈ r.indices, n ≤ i ∧ i < n + lenF cs
  | [], _, _, h => by simp [regionsOfCounts] at h
  | [c], n, r, h => by
    intro i hi
    simp only [regionsOfCounts, List.append_nil] at h
    by_cases hc : minE ≤ c
    · rw [if_pos hc] at h
      simp only [List.mem_singleton] at h
      subst h
      simp only [mkRegion] at hi
      rw [List.mem_range'_1] at hi
      exact ⟨hi.1, by simpa [lenF] using hi.2⟩
    · rw [if_neg hc] at h
      simp at h
  | c :: c2 :: cs, n, r, h => by
    intro i hi
    rw [regionsOfCounts_cons, List.mem_append] at h
    rcases h with h | h
    · by_cases hc : minE ≤ c
      · rw [if_pos hc] at h
        simp only [List.mem_singleton] at h
        subst h
        simp only [mkRegion] at hi
        rw [List.mem_range'_1] at hi
        rw [lenF_cons_cons]
        exact ⟨hi.1, by omega⟩
      · rw [if_neg hc] at h
        simp at h
    · have := regionsOfCounts_bound minE (c2 :: cs) (n + c + 1) r h i hi
      rw [lenF_cons_cons]
      constructor <;> omega

theorem regionsOfCounts_pairwise (minE : Nat) :
    ∀ (cs : List Nat) (n : Nat),
      List.Pairwise (fun r1 r2 => ∀ i ∈ r1.indices, ∀ j ∈ r2.indices, i < j)
        (regionsOfCounts minE n cs)
  | [], _ => by simp [regionsOfCounts]
  | c :: cs, n => by
    simp only [regionsOfCounts]
    rw [List.pairwise_append]
    refine ⟨?_, regionsOfCounts_pairwise minE cs (n + c + 1), ?_⟩
    · by_cases hc : minE ≤ c <;> simp [hc]
    · intro r1 h1 r2 h2 i hi j hj
      have hub : i < n + c := by
        by_cases hc : minE ≤ c
        · rw [if_pos hc] at h1
          simp only [List.mem_singleton] at h1
          subst h1
          simp only [mkRegion] at hi
          rw [List.mem_range'_1] at hi
          exact hi.2
        · rw [if_neg hc] at h1
          simp at h1
      have hlb := (regionsOfCounts_bound minE cs (n + c + 1) r2 h2 j hj).1
      omega

/-- Positions inside an emitted region hold the bit `true` in the boolean
body view. -/
theorem regionsOfCounts_get (minE : Nat) :
    ∀ (cs : List Nat) (n : Nat) (r : Region), r ∈ regionsOfCounts minE n cs →
      ∀ i ∈ r.indices, (fromCounts cs).get? (i - n) = some true
  | [], _, _, h => by simp [regionsOfCounts] at h
  | [c], n, r, h => by
    intro i hi
    simp only [regionsOfCounts, List.append_nil] at h
    by_cases hc : minE ≤ c
    · rw [if_pos hc] at h
      simp only [List.mem_singleton] at h
      subst h
      simp only [mkRegion] at hi
      rw [List.mem_range'_1] at hi
      show (List.replicate c true).get? (i - n) = some true
      rw [List.get?_eq_getElem?, List.getElem?_replicate, if_pos (by omega)]
    · rw [if_neg hc] at h
      simp at h
  | c :: c2 :: cs, n, r, h => by
    intro i hi
    rw [regionsOfCounts_cons, List.mem_append] at h
    rw [fromCounts_cons_cons]
    rcases h with h | h
    · by_cases hc : minE ≤ c
      · rw [if_pos hc] at h
        simp only [List.mem_singleton] at h
        subst h
        simp only [mkRegion] at hi
        rw [List.mem_range'_1] at hi
        rw [List.get?_append (by simp; omega)]
        rw [List.get?_eq_getElem?, List.getElem?_replicate, if_pos (by omega)]
      · rw [if_neg hc] at h
        simp at h
    · have hge := (regionsOfCounts_bound minE (c2 :: cs) (n + c + 1) r h i hi).1
      have ih := regionsOfCounts_get minE (c2 :: cs) (n + c + 1) r h i hi
      rw [List.get?_append_right (by simp; omega)]
      simp only [List.length_replicate]
      have h1 : i - n - c = (i - (n + c + 1)) + 1 := by omega
      rw [h1]
      show (false :: fromCounts (c2 :: cs)).get? (_ + 1) = some true
      simpa using ih

theorem regionsOfCounts_small (minE : Nat) :
    ∀ (cs : List Nat) (n : Nat), (∀ c ∈ cs, c < minE) → regionsOfCounts minE n cs = []
  | [], _, _ => rfl
  | c :: cs, n, h => by
    simp only [regionsOfCounts]
    rw [if_neg (by have := h c (by simp); omega)]
    simp only [List.nil_append]
    exact regionsOfCounts_small minE cs (n + c + 1) (fun c' hc' => h c' (by simp [hc']))

/-- Whether position `i` belongs to some region of the list. -/
def inRegions (regions : List Region) (i : Nat) : Bool :=
  regions.any (fun r => r.indices.contains i)

/-- Whether position `i` falls inside a run of length at least `minE` in the
run-length decomposition `cs` laid out from position `n`. -/
def inBigRun (minE : Nat) : Nat → List Nat → Nat → Bool
  | _, [], _ => false
  | n, c :: cs, i =>
    (decide (minE ≤ c) && decide (n ≤ i) && decide (i < n + c)) || inBigRun minE (n + c + 1) cs i

theorem inBigRun_cons (minE n c : Nat) (cs : List Nat) (i : Nat) :
    inBigRun minE n (c :: cs) i =
      ((decide (minE ≤ c) && decide (n ≤ i) && decide (i < n + c)) ||
        inBigRun minE (n + c + 1) cs i) := rfl

theorem inBigRun_lt (minE : Nat) :
    ∀ (cs : List Nat) (n i : Nat), i < n → inBigRun minE n cs i = false
  | [], _, _, _ => rfl
  | c :: cs, n, i, h => by
    simp only [inBigRun, Bool.or_eq_false_iff]
    constructor
    · simp only [Bool.and_eq_false_iff]
      left; right
      simpa using by omega
    · exact inBigRun_lt minE cs (n + c + 1) i (by omega)

theorem inRegions_regionsOfCounts (minE : Nat) :
    ∀ (cs : List Nat) (n i : Nat),
      inRegions (regionsOfCounts minE n cs) i = inBigRun minE n cs i
  | [], _, _ => rfl
  | c :: cs, n, i => by
    rw [Bool.eq_iff_iff]
    simp only [inRegions, regionsOfCounts_cons, List.any_append, Bool.or_eq_true,
      inBigRun, Bool.and_eq_true, decide_eq_true_eq]
    rw [← inRegions_regionsOfCounts minE cs (n + c + 1) i]
    simp only [inRegions]
    constructor
    · rintro (h | h)
      · left
        by_cases hc : minE ≤ c
        · rw [if_pos hc] at h
          simp only [List.any_eq_true, List.mem_singleton] at h
          obtain ⟨r, hr, hcont⟩ := h
          subst hr
          simp only [mkRegion] at hcont
          replace hcont := List.elem_iff.mp hcont
          rw [List.mem_range'_1] at hcont
          exact ⟨⟨hc, hcont.1⟩, hcont.2⟩
        · rw [if_neg hc] at h
          simp at h
      · right; exact h
    · rintro (⟨⟨h1, h2⟩, h3⟩ | h)
      · left
        rw [if_pos h1]
        simp only [List.any_eq_true, List.mem_singleton]
        refine ⟨mkRegion n c, rfl, ?_⟩
        simp only [mkRegion]
        exact List.elem_iff.mpr (by rw [List.mem_range'_1]; exact ⟨h2, h3⟩)
      · right; exact h

/-- Order-preserving removal of the elements at the selected positions,
counting from `n`: the specification-side description of deletion
("remove exactly those elements, and only those, keeping the others in
their original relative order"). -/
def removeIndices {α : Type} (sel : Nat → Bool) : Nat → List α → List α
  | _, [] => []
  | n, a :: l => if sel n then removeIndices sel (n + 1) l else a :: removeIndices sel (n + 1) l

theorem removeIndices_congr {α : Type} (sel sel' : Nat → Bool) :
    ∀ (l : List α) (n : Nat), (∀ i, n ≤ i → sel i = sel' i) →
      removeIndices sel n l = removeIndices sel' n l
  | [], _, _ => rfl
  | a :: l, n, h => by
    simp only [removeIndices, h n (le_refl n)]
    rw [removeIndices_congr sel sel' l (n + 1) (fun i hi => h i (by omega))]

theorem removeIndices_append {α : Type} (sel : Nat → Bool) :
    ∀ (l1 l2 : List α) (n : Nat),
      removeIndices sel n (l1 ++ l2) =
        removeIndices sel n l1 ++ removeIndices sel (n + l1.length) l2
  | [], l2, n => by simp [removeIndices]
  | a :: l1, l2, n => by
    simp only [List.cons_append, removeIndices, List.length_cons, List.append_eq]
    rw [removeIndices_append sel l1 l2 (n + 1)]
    have h : n + (l1.length + 1) = n + 1 + l1.length := by omega
    rw [h]
    by_cases hs : sel n <;> simp [hs]

theorem removeIndices_map {α β : Type} (sel : Nat → Bool) (f : α → β) :
    ∀ (l : List α) (n : Nat),
      removeIndices sel n (l.map f) = (removeIndices sel n l).map f
  | [], _ => rfl
  | a :: l, n => by
    simp only [List.map_cons, removeIndices]
    by_cases hs : sel n <;> simp [hs, removeIndices_map sel f l (n + 1)]

theorem removeIndices_all_true {α : Type} (sel : Nat → Bool) :
    ∀ (l : List α) (n : Nat), (∀ j, n ≤ j → j < n + l.length → sel j = true) →
      removeIndices sel n l = []
  | [], _, _ => rfl
  | a :: l, n, h => by
    simp only [removeIndices, h n (le_refl n) (by simp), if_true]
    exact removeIndices_all_true sel l (n + 1) (fun j h1 h2 => h j (by omega) (by simp at h2 ⊢; omega))

theorem removeIndices_all_false {α : Type} (sel : Nat → Bool) :
    ∀ (l : List α) (n : Nat), (∀ j, n ≤ j → j < n + l.length → sel j = false) →
      removeIndices sel n l = l
  | [], _, _ => rfl
  | a :: l, n, h => by
    simp only [removeIndices, h n (le_refl n) (by simp), Bool.false_eq_true, if_false]
    rw [removeIndices_all_false sel l (n + 1) (fun j h1 h2 => h j (by omega) (by simp at h2 ⊢; omega))]

/-- Threshold cleanup on a run-length list: runs that reach the minimum are
deleted (length becomes `0`), shorter runs are kept. -/
def zeroBig (minE c : Nat) : Nat := if minE ≤ c then 0 else c

theorem removeIndices_inBigRun (minE : Nat) :
    ∀ (cs : List Nat) (n : Nat),
      removeIndices (inBigRun minE n cs) n (fromCounts cs) = fromCounts (cs.map (zeroBig minE))
  | [], _ => rfl
  | [c], n => by
    show removeIndices (inBigRun minE n [c]) n (List.replicate c true) = fromCounts [zeroBig minE c]
    by_cases hc : minE ≤ c
    · rw [removeIndices_all_true]
      · simp [fromCounts, zeroBig, hc]
      · intro j h1 h2
        simp only [List.length_replicate] at h2
        simp only [inBigRun, Bool.or_eq_true, Bool.and_eq_true, decide_eq_true_eq]
        exact Or.inl ⟨⟨hc, h1⟩, h2⟩
    · rw [removeIndices_all_false]
      · simp [fromCounts, zeroBig, hc]
      · intro j h1 h2
        simp only [List.length_replicate] at h2
        simp only [inBigRun, Bool.or_eq_false_iff]
        exact ⟨by simp [hc], trivial⟩
  | c :: c2 :: cs, n => by
    rw [fromCounts_cons_cons, removeIndices_append]
    have hsep : (false :: fromCounts (c2 :: cs)) = [false] ++ fromCounts (c2 :: cs) := rfl
    rw [hsep, removeIndices_append]
    have hmain : removeIndices (inBigRun minE n (c :: c2 :: cs)) n (List.replicate c true) =
        (if minE ≤ c then ([] : List Bool) else List.replicate c true) := by
      by_cases hc : minE ≤ c
      · rw [if_pos hc]
        apply removeIndices_all_true
        intro j h1 h2
        simp only [List.length_replicate] at h2
        rw [inBigRun_cons, Bool.or_eq_true]
        exact Or.inl (by simp only [Bool.and_eq_true, decide_eq_true_eq]; exact ⟨⟨hc, h1⟩, h2⟩)
      · rw [if_neg hc]
        apply removeIndices_all_false
        intro j h1 h2
        simp only [List.length_replicate] at h2
        rw [inBigRun_cons, Bool.or_eq_false_iff]
        exact ⟨by simp [hc], inBigRun_lt minE (c2 :: cs) (n + c + 1) j (by omega)⟩
    have hsepval : removeIndices (inBigRun minE n (c :: c2 :: cs))
        (n + (List.replicate c true : List Bool).length) [false] = [false] := by
      apply removeIndices_all_false
      intro j h1 h2
      simp only [List.length_replicate, List.length_singleton] at h1 h2
      have hj : j = n + c := by omega
      subst hj
      rw [inBigRun_cons, Bool.or_eq_false_iff]
      refine ⟨?_, inBigRun_lt minE (c2 :: cs) (n + c + 1) (n + c) (by omega)⟩
      simp only [Bool.and_eq_false_iff]
      right
      simp
    have hcong : ∀ i, n + c + 1 ≤ i →
        inBigRun minE n (c :: c2 :: cs) i = inBigRun minE (n + c + 1) (c2 :: cs) i := by
      intro i hi
      rw [inBigRun_cons]
      have hlt : ¬(i < n + c) := by omega
      simp [hlt]
    have htail : removeIndices (inBigRun minE n (c :: c2 :: cs)) (n + c + 1)
        (fromCounts (c2 :: cs)) = fromCounts ((c2 :: cs).map (zeroBig minE)) := by
      rw [removeIndices_congr _ _ (fromCounts (c2 :: cs)) (n + c + 1) hcong]
      exact removeIndices_inBigRun minE (c2 :: cs) (n + c + 1)
    rw [hmain, hsepval]
    simp only [List.length_replicate, List.length_singleton]
    rw [htail]
    by_cases hc : minE ≤ c
    · rw [if_pos hc]
      have hmz : (c :: c2 :: cs).map (zeroBig minE) = 0 :: (c2 :: cs).map (zeroBig minE) := by
        simp [zeroBig, hc]
      rw [hmz]
      cases hm : (c2 :: cs).map (zeroBig minE) with
      | nil => simp at hm
      | cons z zs => simp [fromCounts]
    · rw [if_neg hc]
      have hmz : (c :: c2 :: cs).map (zeroBig minE) = c :: (c2 :: cs).map (zeroBig minE) := by
        simp [zeroBig, hc]
      rw [hmz]
      cases hm : (c2 :: cs).map (zeroBig minE) with
      | nil => simp at hm
      | cons z zs => simp [fromCounts]

theorem removeFirst_sublist {α : Type} [DecidableEq α] (x : α) :
    ∀ l : List α, (removeFirst x l).Sublist l
  | [] => List.Sublist.refl []
  | a :: l => by
    simp only [removeFirst]
    by_cases h : a = x
    · rw [if_pos h]
      exact (List.sublist_cons_self a l)
    · rw [if_neg h]
      exact List.Sublist.cons₂ a (removeFirst_sublist x l)

theorem removeFirst_of_not_mem {α : Type} [DecidableEq α] (x : α) :
    ∀ l : List α, x ∉ l → removeFirst x l = l
  | [], _ => rfl
  | a :: l, h => by
    simp only [List.mem_cons, not_or] at h
    simp only [removeFirst]
    rw [if_neg (fun hax => h.1 hax.symm)]
    rw [removeFirst_of_not_mem x l h.2]

theorem removeFirst_eq_filter {α : Type} [DecidableEq α] (x : α) :
    ∀ l : List α, l.Nodup → removeFirst x l = l.filter (fun a => !(decide (a = x)))
  | [], _ => rfl
  | a :: l, h => by
    rw [List.nodup_cons] at h
    by_cases hax : a = x
    · subst hax
      simp only [removeFirst, eq_self_iff_true, if_true]
      rw [List.filter_cons_of_neg (by simp)]
      symm
      rw [List.filter_eq_self]
      intro b hb
      simp only [Bool.not_eq_eq_eq_not, Bool.not_true, decide_eq_false_iff_not]
      exact fun hba => h.1 (hba ▸ hb)
    · simp only [removeFirst, if_neg hax]
      rw [List.filter_cons_of_pos (by simp [hax])]
      rw [removeFirst_eq_filter x l h.2]

/-- The deletion loop of `delete_empty_regions` as a filter: starting from a
duplicate-free tree, folding identity-removals of the elements found at the
scheduled positions of `paragraphs` keeps exactly the elements that sit at
no scheduled position. -/
theorem foldl_remove_eq_filter {α : Type} [DecidableEq α] (paragraphs : List α) :
    ∀ (ids : List Nat) (b : List α), b.Nodup →
      ids.foldl
        (fun acc i =>
          match paragraphs.get? i with
          | some elem => removeFirst elem acc
          | none => acc) b =
      b.filter (fun a => !(ids.any (fun i => decide (paragraphs.get? i = some a))))
  | [], b, _ => by simp
  | i :: ids, b, hb => by
    simp only [List.foldl_cons]
    cases hip : paragraphs.get? i with
    | none =>
      rw [foldl_remove_eq_filter paragraphs ids b hb]
      apply List.filter_congr
      intro a _
      simp only [List.any_cons, Bool.not_or]
      have hgi : (decide (paragraphs.get? i = some a)) = false := by
        rw [hip]
        simp
      rw [hgi]
      simp
    | some e =>
      have hstep : (removeFirst e b).Nodup := (removeFirst_sublist e b).nodup hb
      rw [foldl_remove_eq_filter paragraphs ids (removeFirst e b) hstep]
      rw [removeFirst_eq_filter e b hb, List.filter_filter]
      apply List.filter_congr
      intro a _
      simp only [List.any_cons, Bool.not_or]
      have hgi : (decide (paragraphs.get? i = some a)) = decide (a = e) := by
        rw [hip]
        simp only [Option.some.injEq]
        exact decide_eq_decide.mpr ⟨fun h => h.symm, fun h => h.symm⟩
      rw [hgi, Bool.and_comm]

theorem mem_insertDesc (a i : Nat) : ∀ l : List Nat, a ∈ insertDesc i l ↔ a = i ∨ a ∈ l
  | [] => by simp [insertDesc]
  | b :: l => by
    simp only [insertDesc]
    by_cases h : b ≤ i
    · rw [if_pos h]
      simp
    · rw [if_neg h]
      simp only [List.mem_cons, mem_insertDesc a i l]
      tauto

theorem mem_sortDesc (a : Nat) : ∀ l : List Nat, a ∈ sortDesc l ↔ a ∈ l
  | [] => Iff.rfl
  | b :: l => by
    show a ∈ insertDesc b (sortDesc l) ↔ _
    rw [mem_insertDesc, mem_sortDesc a l]
    simp

theorem mem_indicesToDelete (i : Nat) (regions : List Region) :
    i ∈ indicesToDelete regions ↔ inRegions regions i = true := by
  unfold indicesToDelete regionIndices
  rw [mem_sortDesc, List.mem_dedup, List.mem_flatten]
  unfold inRegions
  rw [List.any_eq_true]
  constructor
  · rintro ⟨l, hl, hil⟩
    rw [List.mem_map] at hl
    obtain ⟨r, hr, hrl⟩ := hl
    exact ⟨r, hr, List.elem_iff.mpr (hrl ▸ hil)⟩
  · rintro ⟨r, hr, hri⟩
    exact ⟨r.indices, List.mem_map.mpr ⟨r, hr, rfl⟩, List.elem_iff.mp hri⟩

theorem removeIndices_eq_enum {α : Type} (sel : Nat → Bool) :
    ∀ (l : List α) (n : Nat),
      removeIndices sel n l =
        ((List.enumFrom n l).filter (fun p => !(sel p.1))).map Prod.snd
  | [], _ => rfl
  | a :: l, n => by
    rw [List.enumFrom_cons]
    by_cases h : sel n
    · simp only [removeIndices, if_pos h]
      rw [List.filter_cons_of_neg (by simp [h])]
      exact removeIndices_eq_enum sel l (n + 1)
    · simp only [removeIndices, if_neg h]
      rw [List.filter_cons_of_pos (by simp [h])]
      simp only [List.map_cons]
      rw [removeIndices_eq_enum sel l (n + 1)]

theorem filter_eq_enum {α : Type} (q : α → Bool) :
    ∀ (l : List α) (n : Nat),
      l.filter q = ((List.enumFrom n l).filter (fun p => q p.2)).map Prod.snd
  | [], _ => rfl
  | a :: l, n => by
    rw [List.enumFrom_cons]
    by_cases h : q a
    · simp only [List.filter_cons, h, eq_self_iff_true, if_true, List.map_cons]
      rw [filter_eq_enum q l (n + 1)]
    · have hf : q a = false := by simpa using h
      simp only [List.filter_cons, hf, Bool.false_eq_true, if_false]
      exact filter_eq_enum q l (n + 1)

theorem filter_get_eq_removeIndices {α : Type} [DecidableEq α] (body : List α)
    (hnd : body.Nodup) (ids : List Nat) :
    body.filter (fun a => !(ids.any (fun i => decide (body.get? i = some a)))) =
      removeIndices (fun i => ids.contains i) 0 body := by
  rw [removeIndices_eq_enum, filter_eq_enum _ body 0]
  apply congrArg (List.map Prod.snd)
  apply List.filter_congr
  intro x hx
  obtain ⟨i, a⟩ := x
  obtain ⟨_, hlen, hget⟩ := List.mem_enumFrom hx
  simp only [Nat.zero_add] at hlen
  simp only [Nat.sub_zero] at hget
  have hgq : body.get? i = some a := by
    rw [List.get?_eq_getElem?, List.getElem?_eq_getElem hlen]
    exact congrArg some hget.symm
  congr 1
  rw [Bool.eq_iff_iff]
  simp only [List.any_eq_true, decide_eq_true_eq]
  constructor
  · rintro ⟨j, hj, hja⟩
    have hjlen : j < body.length := by
      rcases List.get?_eq_some.mp hja with ⟨h, _⟩
      exact h
    have : j = i := List.get?_injective hjlen hnd (by rw [hja, hgq])
    exact List.elem_iff.mpr (this ▸ hj)
  · intro h
    exact ⟨i, List.elem_iff.mp h, hgq⟩

/-- The tree-mutation part of `delete_empty_regions` removes exactly the
elements sitting at the scheduled region indices and keeps every other
element, in order. -/
theorem delete_eq_removeIndices {α : Type} [DecidableEq α] (regions : List Region)
    (body : List α) (hnd : body.Nodup) :
    delete_empty_regions regions body body = removeIndices (inRegions regions) 0 body := by
  unfold delete_empty_regions
  rw [foldl_remove_eq_filter body (indicesToDelete regions) body hnd]
  rw [filter_get_eq_removeIndices body hnd (indicesToDelete regions)]
  apply removeIndices_congr
  intro i _
  rw [Bool.eq_iff_iff]
  constructor
  · intro h
    exact (mem_indicesToDelete i regions).mp (List.elem_iff.mp h)
  · intro h
    exact List.elem_iff.mpr ((mem_indicesToDelete i regions).mpr h)

theorem find_indices_lt (body : List Elem) (minE : Nat) (hmin : 1 ≤ minE) :
    ∀ i, inRegions (find_empty_page_regions body minE) i = true → i < body.length := by
  intro i h
  rw [find_eq_findB, findB_regionsOfCounts minE hmin] at h
  unfold inRegions at h
  rw [List.any_eq_true] at h
  obtain ⟨r, hr, hci⟩ := h
  have hb := regionsOfCounts_bound minE _ 0 r hr i (List.elem_iff.mp hci)
  have hl := lenF_toCounts (body.map countable)
  simp only [List.length_map] at hl
  omega

theorem findB_single (minE : Nat) (hmin : 1 ≤ minE) (k : Nat) :
    findB minE (List.replicate k true) = if minE ≤ k then [mkRegion 0 k] else [] := by
  have h : (List.replicate k true : List Bool) = fromCounts [k] := rfl
  rw [h, findB_fromCounts minE hmin]
  simp [regionsOfCounts]

theorem findB_split (minE : Nat) (hmin : 1 ≤ minE) (p q : Nat) :
    findB minE (List.replicate p true ++ false :: List.replicate q true) =
      (if minE ≤ p then [mkRegion 0 p] else []) ++
        (if minE ≤ q then [mkRegion (p + 1) q] else []) := by
  have h : List.replicate p true ++ false :: List.replicate q true = fromCounts [p, q] := rfl
  rw [h, findB_fromCounts minE hmin]
  rw [regionsOfCounts_cons]
  simp [regionsOfCounts]

theorem map_countable_replicate (a : List Elem) (h : ∀ x ∈ a, countable x = true) :
    a.map countable = List.replicate a.length true := by
  rw [List.eq_replicate_iff]
  refine ⟨by simp, ?_⟩
  intro b hb
  rw [List.mem_map] at hb
  obtain ⟨x, hx, hfx⟩ := hb
  rw [← hfx]
  exact h x hx

theorem join_cons (s : String) (l : List String) :
    String.join (s :: l) = s ++ String.join l := by
  apply String.ext
  rw [String.join_eq, String.join_eq]
  simp

theorem foldl_append_eq_join (f : Elem → String) :
    ∀ (l : List Elem) (acc : String),
      l.foldl (fun a t => a ++ f t) acc = acc ++ String.join (l.map f)
  | [], acc => by simp [String.join]
  | t :: l, acc => by
    simp only [List.foldl_cons, List.map_cons]
    rw [foldl_append_eq_join f l (acc ++ f t), join_cons, String.append_assoc]

theorem string_length_eq_zero_iff (s : String) : s.length = 0 ↔ s = "" := by
  show s.data.length = 0 ↔ s = ""
  rw [List.length_eq_zero]
  constructor
  · exact fun h => String.ext h
  · intro h
    subst h
    rfl

/-- Claim C1, counterexample: the scan never consults `has_page_break`, so
an empty paragraph carrying an explicit `<w:br w:type="page"/>` does not
terminate the run and is included in an emitted region, contradicting the
claim that it is excluded from every emitted region. -/
theorem C1_counterexample :
    has_page_break pageBreakPara = true ∧
    is_empty_paragraph pageBreakPara = true ∧
    find_empty_page_regions [pageBreakPara] 1 =
      [{ start_index := some 0, end_index := some 0, count := 1, indices := [0] }] := by
  refine ⟨by decide, by decide, by decide⟩

/-- Claim C1, amended: an element is included in an emitted region only if
it is a paragraph, its visible text is empty, and it carries no
page-forcing section break; an explicit page break marker neither
terminates the run nor excludes the paragraph. -/
theorem C1_amended_run_membership (body : List Elem) (minE : Nat) (hmin : 1 ≤ minE)
    (r : Region) (hr : r ∈ find_empty_page_regions body minE) (i : Nat) (hi : i ∈ r.indices) :
    ∃ e, body.get? i = some e ∧ tagLocal e.tag = "p" ∧ is_empty_paragraph e = true ∧
      has_section_break e = false := by
  rw [find_eq_findB, findB_regionsOfCounts minE hmin] at hr
  have hget := regionsOfCounts_get minE (toCounts (body.map countable)) 0 r hr i hi
  rw [fromCounts_toCounts] at hget
  simp only [Nat.sub_zero] at hget
  rw [List.get?_map] at hget
  cases hb : body.get? i with
  | none =>
    rw [hb] at hget
    simp at hget
  | some e =>
    rw [hb] at hget
    simp only [Option.map_some'] at hget
    have hce : countable e = true := Option.some.inj hget
    unfold countable at hce
    simp only [Bool.and_eq_true, beq_iff_eq, Bool.not_eq_true'] at hce
    exact ⟨e, rfl, hce.1, hce.2.1, hce.2.2⟩

theorem C1_amended_run_membership_witness :
    ∃ e, [emptyParaId 0].get? 0 = some e ∧ tagLocal e.tag = "p" ∧
      is_empty_paragraph e = true ∧ has_section_break e = false :=
  C1_amended_run_membership [emptyParaId 0] 1 (by decide)
    { start_index := some 0, end_index := some 0, count := 1, indices := [0] }
    (by decide) 0 (by decide)

/-- Claim C3: a paragraph with a section break of type nextPage, oddPage or
evenPage splits an otherwise-empty run into two runs, each separately
compared against the threshold, while a continuous section break does not
split the run and counts as an ordinary empty paragraph inside it. -/
theorem C3_section_break_split :
    (∀ (v : String) (minE : Nat) (a b : List Elem), 1 ≤ minE →
      (v = "nextPage" ∨ v = "oddPage" ∨ v = "evenPage") →
      (∀ x ∈ a, countable x = true) → (∀ x ∈ b, countable x = true) →
      find_empty_page_regions (a ++ sectBreakPara v :: b) minE =
        (if minE ≤ a.length then [mkRegion 0 a.length] else []) ++
          (if minE ≤ b.length then [mkRegion (a.length + 1) b.length] else [])) ∧
    (∀ (minE : Nat) (a b : List Elem), 1 ≤ minE →
      (∀ x ∈ a, countable x = true) → (∀ x ∈ b, countable x = true) →
      find_empty_page_regions (a ++ sectBreakPara "continuous" :: b) minE =
        (if minE ≤ a.length + 1 + b.length
         then [mkRegion 0 (a.length + 1 + b.length)] else [])) := by
  constructor
  · intro v minE a b hmin hv ha hb
    have hcv : countable (sectBreakPara v) = false := by
      rcases hv with h | h | h <;> subst h <;> decide
    rw [find_eq_findB]
    rw [List.map_append, List.map_cons, map_countable_replicate a ha,
      map_countable_replicate b hb, hcv]
    exact findB_split minE hmin a.length b.length
  · intro minE a b hmin ha hb
    have hcv : countable (sectBreakPara "continuous") = true := by decide
    rw [find_eq_findB]
    rw [List.map_append, List.map_cons, map_countable_replicate a ha,
      map_countable_replicate b hb, hcv]
    have hjoin : List.replicate a.length true ++ true :: List.replicate b.length true =
        List.replicate (a.length + 1 + b.length) true := by
      rw [show a.length + 1 + b.length = a.length + (1 + b.length) from by omega]
      rw [List.replicate_add, Nat.add_comm 1 b.length, List.replicate_succ]
    rw [hjoin]
    exact findB_single minE hmin (a.length + 1 + b.length)

theorem C3_section_break_split_witness :
    find_empty_page_regions [emptyParaId 0, sectBreakPara "nextPage", emptyParaId 1] 1 =
      [mkRegion 0 1, mkRegion 2 1] ∧
    find_empty_page_regions [emptyParaId 0, sectBreakPara "continuous", emptyParaId 1] 3 =
      [mkRegion 0 3] := by
  constructor
  · have h := C3_section_break_split.1 "nextPage" 1 [emptyParaId 0] [emptyParaId 1]
      (by decide) (Or.inl rfl) (by decide) (by decide)
    show find_empty_page_regions ([emptyParaId 0] ++ sectBreakPara "nextPage" :: [emptyParaId 1])
      1 = _
    rw [h]
    decide
  · have h := C3_section_break_split.2 3 [emptyParaId 0] [emptyParaId 1]
      (by decide) (by decide) (by decide)
    show find_empty_page_regions ([emptyParaId 0] ++ sectBreakPara "continuous" :: [emptyParaId 1])
      3 = _
    rw [h]
    decide

/-- Claim C4: the emptiness classifier computes the paragraph text as the
concatenation, in document order, of every descendant text run's content,
trimmed of surrounding whitespace; a paragraph is classified empty exactly
when that trimmed text is the empty string; elements that are not `w:t`
text runs (such as drawings) contribute nothing, so a paragraph with no
`w:t` descendant is classified empty. -/
theorem C4_text_emptiness (p : Elem) :
    get_paragraph_text p =
      pyStrip (String.join ((findallDesc (wTag "t") p).map (fun t => t.text.getD ""))) ∧
    (is_empty_paragraph p = true ↔ get_paragraph_text p = "") ∧
    (findallDesc (wTag "t") p = [] → is_empty_paragraph p = true) := by
  have h1 : get_paragraph_text p =
      pyStrip (String.join ((findallDesc (wTag "t") p).map (fun t => t.text.getD ""))) := by
    unfold get_paragraph_text
    rw [foldl_append_eq_join (fun t => t.text.getD "") (findallDesc (wTag "t") p) ""]
    rw [String.empty_append]
  refine ⟨h1, ?_, ?_⟩
  · unfold is_empty_paragraph
    rw [beq_iff_eq]
    exact string_length_eq_zero_iff (get_paragraph_text p)
  · intro hnil
    unfold is_empty_paragraph get_paragraph_text
    rw [hnil]
    decide

theorem C4_text_emptiness_witness : is_empty_paragraph drawingPara = true :=
  (C4_text_emptiness drawingPara).2.2 (by decide)

theorem fromCounts_append_last :
    ∀ (cs : List Nat), cs ≠ [] → ∀ (k : Nat),
      fromCounts (cs ++ [k]) = fromCounts cs ++ false :: List.replicate k true
  | [], h, _ => absurd rfl h
  | [c], _, k => by
    show fromCounts [c, k] = List.replicate c true ++ false :: List.replicate k true
    rfl
  | c :: c2 :: cs, _, k => by
    show fromCounts (c :: ((c2 :: cs) ++ [k])) = _
    have hne : (c2 :: cs) ++ [k] ≠ [] := by simp
    cases hm : (c2 :: cs) ++ [k] with
    | nil => exact absurd hm hne
    | cons d ds =>
      rw [← hm]
      have step : fromCounts (c :: ((c2 :: cs) ++ [k])) =
          List.replicate c true ++ false :: fromCounts ((c2 :: cs) ++ [k]) := by
        rw [hm]
        rfl
      rw [step, fromCounts_append_last (c2 :: cs) (by simp) k, fromCounts_cons_cons]
      simp

theorem regionsOfCounts_append_last :
    ∀ (cs : List Nat), cs ≠ [] → ∀ (minE n k : Nat),
      regionsOfCounts minE n (cs ++ [k]) =
        regionsOfCounts minE n cs ++
          (if minE ≤ k then [mkRegion (n + lenF cs + 1) k] else [])
  | [], h, _, _, _ => absurd rfl h
  | [c], _, minE, n, k => by
    show regionsOfCounts minE n [c, k] = _
    rw [regionsOfCounts_cons, regionsOfCounts_cons]
    simp only [regionsOfCounts, List.append_nil]
    simp [lenF]
  | c :: c2 :: cs, _, minE, n, k => by
    show regionsOfCounts minE n ((c :: (c2 :: cs)) ++ [k]) = _
    rw [List.cons_append, regionsOfCounts_cons, regionsOfCounts_cons]
    rw [regionsOfCounts_append_last (c2 :: cs) (by simp) minE (n + c + 1) k]
    rw [List.append_assoc, lenF_cons_cons]
    have harith : n + c + 1 + lenF (c2 :: cs) + 1 = n + (c + 1 + lenF (c2 :: cs)) + 1 := by omega
    rw [harith]

/-- Claim C2: with threshold `t`, a document ending in exactly `k`
consecutive empty non-breaking paragraphs (preceded by a non-empty
paragraph or by document start) yields no region touching those trailing
positions when `k = t - 1`, and exactly one region whose index list is
exactly the `k` trailing positions when `k = t`; the end-of-document run is
judged by the same threshold test as an interior run. -/
theorem C2_trailing_run_threshold (t k : Nat) (ht : 1 ≤ t) (pre tail : List Elem)
    (hlen : tail.length = k)
    (htail : ∀ e ∈ tail, countable e = true)
    (hpre : pre = [] ∨ ∃ pre' lastE, pre = pre' ++ [lastE] ∧ tagLocal lastE.tag = "p" ∧
      is_empty_paragraph lastE = false) :
    (k = t - 1 →
      ∀ r ∈ find_empty_page_regions (pre ++ tail) t, ∀ i ∈ r.indices, i < pre.length) ∧
    (k = t →
      (find_empty_page_regions (pre ++ tail) t).countP
          (fun r => decide (r.indices = List.range' pre.length k)) = 1 ∧
      mkRegion pre.length k ∈ find_empty_page_regions (pre ++ tail) t) := by
  have htailrep : tail.map countable = List.replicate k true := by
    rw [map_countable_replicate tail htail, hlen]
  rcases hpre with hpre | ⟨pre', lastE, hpre, htag, hne⟩
  · subst hpre
    have hfind : find_empty_page_regions ([] ++ tail) t =
        if t ≤ k then [mkRegion 0 k] else [] := by
      rw [find_eq_findB]
      simp only [List.nil_append]
      rw [htailrep]
      exact findB_single t ht k
    constructor
    · intro hk r hr
      rw [hfind, if_neg (by omega)] at hr
      simp at hr
    · intro hk
      rw [hfind, if_pos (by omega)]
      subst hk
      constructor
      · rw [List.countP_cons]
        simp [mkRegion]
      · simp [mkRegion]
  · subst hpre
    have hclast : countable lastE = false := by
      unfold countable
      rw [hne]
      simp
    have hpremap : (pre' ++ [lastE]).map countable =
        fromCounts (toCounts (pre'.map countable)) ++ [false] := by
      rw [List.map_append, fromCounts_toCounts]
      simp [hclast]
    have hbs : ((pre' ++ [lastE]) ++ tail).map countable =
        fromCounts (toCounts (pre'.map countable) ++ [k]) := by
      rw [List.map_append, hpremap, htailrep,
        fromCounts_append_last (toCounts (pre'.map countable)) (toCounts_ne_nil _) k]
      simp
    have hlenpre : lenF (toCounts (pre'.map countable)) = pre'.length := by
      rw [lenF_toCounts]
      simp
    have hprelen : (pre' ++ [lastE]).length = pre'.length + 1 := by simp
    have hfind : find_empty_page_regions ((pre' ++ [lastE]) ++ tail) t =
        regionsOfCounts t 0 (toCounts (pre'.map countable)) ++
          (if t ≤ k then [mkRegion (pre'.length + 1) k] else []) := by
      rw [find_eq_findB, hbs, findB_fromCounts t ht,
        regionsOfCounts_append_last (toCounts (pre'.map countable)) (toCounts_ne_nil _) t 0 k]
      rw [hlenpre]
      have : 0 + pre'.length + 1 = pre'.length + 1 := by omega
      rw [this]
    have hboundR0 : ∀ r ∈ regionsOfCounts t 0 (toCounts (pre'.map countable)),
        ∀ i ∈ r.indices, i < pre'.length := by
      intro r hr i hi
      have := regionsOfCounts_bound t _ 0 r hr i hi
      omega
    constructor
    · intro hk r hr i hi
      rw [hfind, if_neg (by omega)] at hr
      rw [List.append_nil] at hr
      have := hboundR0 r hr i hi
      rw [hprelen]
      omega
    · intro hk
      subst hk
      rw [hfind, if_pos (le_refl k), hprelen]
      constructor
      · rw [List.countP_append, List.countP_cons]
        have hz : (regionsOfCounts k 0 (toCounts (pre'.map countable))).countP
            (fun r => decide (r.indices = List.range' (pre'.length + 1) k)) = 0 := by
          rw [List.countP_eq_zero]
          intro r hr
          simp only [decide_eq_true_eq]
          intro hind
          have hmem : pre'.length + 1 ∈ r.indices := by
            rw [hind, List.mem_range'_1]
            omega
          have := hboundR0 r hr (pre'.length + 1) hmem
          omega
        rw [hz]
        simp [mkRegion]
      · rw [List.mem_append]
        right
        simp

theorem C2_trailing_run_threshold_witness :
    (∀ r ∈ find_empty_page_regions ([paraWithText "x"] ++ [emptyParaId 0]) 2,
      ∀ i ∈ r.indices, i < [paraWithText "x"].length) ∧
    (find_empty_page_regions ([paraWithText "x"] ++ [emptyParaId 0, emptyParaId 1]) 2).countP
        (fun r => decide (r.indices = List.range' [paraWithText "x"].length 2)) = 1 := by
  constructor
  · exact (C2_trailing_run_threshold 2 1 (by decide) [paraWithText "x"] [emptyParaId 0]
      (by decide) (by decide)
      (Or.inr ⟨[], paraWithText "x", rfl, by decide, by decide⟩)).1 rfl
  · exact ((C2_trailing_run_threshold 2 2 (by decide) [paraWithText "x"]
      [emptyParaId 0, emptyParaId 1] (by decide) (by decide)
      (Or.inr ⟨[], paraWithText "x", rfl, by decide, by decide⟩)).2 rfl).1

theorem chain'_succ_range' : ∀ (c s : Nat), (List.range' s c).Chain' (fun a b => b = a + 1)
  | 0, _ => List.chain'_nil
  | 1, s => by simp [List.range'_succ]
  | c + 2, s => by
    rw [List.range'_succ, List.range'_succ]
    refine List.Chain'.cons rfl ?_
    rw [← List.range'_succ]
    exact chain'_succ_range' (c + 1) (s + 1)

/-- Claim C10: every emitted region has a consecutive ascending index list
whose head is `start_index`, whose last element is `end_index`, whose
length is `count` (equal to the end-start span), with `count` at least the
minimum and all indices valid body positions; distinct regions are pairwise
disjoint and listed in increasing index order. -/
theorem C10_region_invariants (body : List Elem) (minE : Nat) (hmin : 1 ≤ minE) :
    (∀ r ∈ find_empty_page_regions body minE,
      r.indices.Chain' (fun a b => b = a + 1) ∧
      r.start_index = r.indices.head? ∧
      r.end_index = r.indices.getLast? ∧
      r.count = r.indices.length ∧
      minE ≤ r.count ∧
      (∀ s e, r.start_index = some s → r.end_index = some e → r.count = e - s + 1) ∧
      (∀ i ∈ r.indices, i < body.length)) ∧
    List.Pairwise (fun r1 r2 => ∀ i ∈ r1.indices, ∀ j ∈ r2.indices, i < j)
      (find_empty_page_regions body minE) := by
  constructor
  · intro r hr
    rw [find_eq_findB, findB_regionsOfCounts minE hmin] at hr
    have hbound := regionsOfCounts_bound minE _ 0 r hr
    have hlt : ∀ i ∈ r.indices, i < body.length := by
      intro i hi
      have h1 := hbound i hi
      have hl := lenF_toCounts (body.map countable)
      simp only [List.length_map] at hl
      omega
    obtain ⟨s, c, hc, -, hrs⟩ := regionsOfCounts_shape minE _ 0 r hr
    subst hrs
    have hc1 : 1 ≤ c := le_trans hmin hc
    refine ⟨chain'_succ_range' c s, ?_, ?_, ?_, hc, ?_, hlt⟩
    · show some s = (List.range' s c).head?
      cases c with
      | zero => omega
      | succ c' =>
        rw [List.range'_succ]
        rfl
    · show some (s + c - 1) = (List.range' s c).getLast?
      rw [List.getLast?_range', if_neg (by omega)]
    · show c = (List.range' s c).length
      rw [List.length_range']
    · intro s' e' hs' he'
      simp only [mkRegion, Option.some.injEq] at hs' he'
      show c = e' - s' + 1
      omega
  · rw [find_eq_findB, findB_regionsOfCounts minE hmin]
    exact regionsOfCounts_pairwise minE _ 0

theorem C10_region_invariants_witness :
    (∀ r ∈ find_empty_page_regions [emptyParaId 0, emptyParaId 1] 2,
      r.indices.Chain' (fun a b => b = a + 1) ∧
      r.start_index = r.indices.head? ∧
      r.end_index = r.indices.getLast? ∧
      r.count = r.indices.length ∧
      2 ≤ r.count ∧
      (∀ s e, r.start_index = some s → r.end_index = some e → r.count = e - s + 1) ∧
      (∀ i ∈ r.indices, i < [emptyParaId 0, emptyParaId 1].length)) ∧
    List.Pairwise (fun r1 r2 => ∀ i ∈ r1.indices, ∀ j ∈ r2.indices, i < j)
      (find_empty_page_regions [emptyParaId 0, emptyParaId 1] 2) :=
  C10_region_invariants [emptyParaId 0, emptyParaId 1] 2 (by decide)

/-- Claim C6: deletion removes exactly the elements at the scheduled region
indices and no others, keeping every untouched element in its original
relative order; no element at a scheduled index remains afterwards. -/
theorem C6_delete_exact (body : List Elem) (regions : List Region) (hnd : body.Nodup)
    (_hvalid : ∀ i, inRegions regions i = true → i < body.length) :
    delete_empty_regions regions body body = removeIndices (inRegions regions) 0 body ∧
    ∀ (i : Nat) (h : i < body.length), inRegions regions i = true →
      body.get ⟨i, h⟩ ∉ delete_empty_regions regions body body := by
  have heq := delete_eq_removeIndices regions body hnd
  refine ⟨heq, ?_⟩
  intro i h hin hmem
  rw [heq, removeIndices_eq_enum, List.mem_map] at hmem
  obtain ⟨⟨j, a⟩, hpair, hsnd⟩ := hmem
  rw [List.mem_filter] at hpair
  obtain ⟨hmemenum, hselj⟩ := hpair
  obtain ⟨-, hjlen, hja⟩ := List.mem_enumFrom hmemenum
  simp only [Nat.zero_add, Nat.sub_zero] at hjlen hja
  have hji : j = i := by
    apply List.get?_injective hjlen hnd
    rw [List.get?_eq_getElem?, List.getElem?_eq_getElem hjlen,
      List.get?_eq_getElem?, List.getElem?_eq_getElem h]
    apply congrArg some
    rw [← hja]
    have hsnd' : a = body.get ⟨i, h⟩ := hsnd
    rw [hsnd', List.get_eq_getElem]
  rw [hji] at hselj
  simp only [Bool.not_eq_eq_eq_not, Bool.not_true] at hselj
  rw [hin] at hselj
  exact absurd hselj (by simp)

theorem C6_delete_exact_witness :
    delete_empty_regions [mkRegion 1 2] [paraWithText "x", emptyParaId 0, emptyParaId 1]
        [paraWithText "x", emptyParaId 0, emptyParaId 1] =
      removeIndices (inRegions [mkRegion 1 2]) 0
        [paraWithText "x", emptyParaId 0, emptyParaId 1] :=
  (C6_delete_exact [paraWithText "x", emptyParaId 0, emptyParaId 1] [mkRegion 1 2]
    (by decide)
    (by
      intro i hi
      simp only [inRegions, List.any_cons, List.any_nil, Bool.or_false] at hi
      replace hi := List.elem_iff.mp hi
      rw [show (mkRegion 1 2).indices = [1, 2] from by decide] at hi
      have h12 : i = 1 ∨ i = 2 := by simpa using hi
      rcases h12 with h | h <;> subst h <;> decide)).1

/-- Claim C7: removing an element that is not present in the current tree
is a no-op raising no error, and removal is idempotent, both for one
`body.remove` call and for re-running the whole deletion with the same
regions. -/
theorem C7_remove_absent_noop (body : List Elem) (e : Elem) (regions : List Region) :
    (e ∉ body → removeFirst e body = body) ∧
    (body.Nodup → removeFirst e (removeFirst e body) = removeFirst e body) ∧
    (body.Nodup →
      delete_empty_regions regions (delete_empty_regions regions body body) body =
        delete_empty_regions regions body body) := by
  refine ⟨removeFirst_of_not_mem e body, ?_, ?_⟩
  · intro hnd
    apply removeFirst_of_not_mem
    rw [removeFirst_eq_filter e body hnd]
    intro hmem
    rw [List.mem_filter] at hmem
    simp at hmem
  · intro hnd
    have h1 : delete_empty_regions regions body body =
        body.filter (fun a => !((indicesToDelete regions).any
          (fun i => decide (body.get? i = some a)))) := by
      unfold delete_empty_regions
      exact foldl_remove_eq_filter body _ body hnd
    rw [h1]
    unfold delete_empty_regions
    rw [foldl_remove_eq_filter body _ _ (hnd.filter _)]
    rw [List.filter_filter]
    apply List.filter_congr
    intro a _
    rw [Bool.and_self]

theorem C7_remove_absent_noop_witness :
    removeFirst (emptyParaId 5) [emptyParaId 0, paraWithText "x"] =
      [emptyParaId 0, paraWithText "x"] ∧
    delete_empty_regions [mkRegion 0 1]
        (delete_empty_regions [mkRegion 0 1] [emptyParaId 0, paraWithText "x"]
          [emptyParaId 0, paraWithText "x"])
        [emptyParaId 0, paraWithText "x"] =
      delete_empty_regions [mkRegion 0 1] [emptyParaId 0, paraWithText "x"]
        [emptyParaId 0, paraWithText "x"] :=
  ⟨(C7_remove_absent_noop [emptyParaId 0, paraWithText "x"] (emptyParaId 5) [mkRegion 0 1]).1
      (by decide),
    (C7_remove_absent_noop [emptyParaId 0, paraWithText "x"] (emptyParaId 5) [mkRegion 0 1]).2.2
      (by decide)⟩

theorem findB_remove_clean (minE : Nat) (hmin : 1 ≤ minE) (bs : List Bool) :
    findB minE (removeIndices (inBigRun minE 0 (toCounts bs)) 0 bs) = [] := by
  have hbs : bs = fromCounts (toCounts bs) := (fromCounts_toCounts bs).symm
  have key := removeIndices_inBigRun minE (toCounts bs) 0
  rw [← hbs] at key
  rw [key, findB_fromCounts minE hmin]
  apply regionsOfCounts_small
  intro c hc
  rw [List.mem_map] at hc
  obtain ⟨c', -, hc'⟩ := hc
  rw [← hc']
  unfold zeroBig
  by_cases h : minE ≤ c'
  · rw [if_pos h]
    omega
  · rw [if_neg h]
    omega

/-- Claim C8: deleting every region the scan detects and rescanning the
resulting document with the same threshold yields no region (the remaining
elements are unchanged, so originally non-empty paragraphs stay
non-empty). -/
theorem C8_rescan_clean (body : List Elem) (minE : Nat) (hmin : 1 ≤ minE)
    (hnd : body.Nodup) :
    find_empty_page_regions
      (delete_empty_regions (find_empty_page_regions body minE) body body) minE = [] := by
  have hdel := delete_eq_removeIndices (find_empty_page_regions body minE) body hnd
  rw [hdel, find_eq_findB, ← removeIndices_map]
  have hsel : ∀ i, 0 ≤ i → inRegions (find_empty_page_regions body minE) i =
      inBigRun minE 0 (toCounts (body.map countable)) i := by
    intro i _
    rw [find_eq_findB, findB_regionsOfCounts minE hmin]
    exact inRegions_regionsOfCounts minE _ 0 i
  rw [removeIndices_congr _ _ (body.map countable) 0 hsel]
  exact findB_remove_clean minE hmin (body.map countable)

theorem C8_rescan_clean_witness :
    find_empty_page_regions
      (delete_empty_regions
        (find_empty_page_regions [paraWithText "x", emptyParaId 0, emptyParaId 1] 2)
        [paraWithText "x", emptyParaId 0, emptyParaId 1]
        [paraWithText "x", emptyParaId 0, emptyParaId 1]) 2 = [] :=
  C8_rescan_clean [paraWithText "x", emptyParaId 0, emptyParaId 1] 2 (by decide) (by decide)

/-- Claim C9: with a body present the scan returns the 5-tuple and the
5-way destructuring in `process_docx` succeeds; without a body element it
returns the 4-tuple and that destructuring fails. -/
theorem C9_result_arity (root : Elem) (minE : Nat) :
    ((findFirstDesc wBodyTag root).isNone →
      (find_empty_page_regions_full root minE).arity = 4 ∧
      process_docx_unpack root minE = none) ∧
    ((findFirstDesc wBodyTag root).isSome →
      (find_empty_page_regions_full root minE).arity = 5 ∧
      (process_docx_unpack root minE).isSome = true) := by
  cases hb : findFirstDesc wBodyTag root with
  | none =>
    constructor
    · intro _
      constructor
      · unfold find_empty_page_regions_full
        rw [hb]
        rfl
      · unfold process_docx_unpack find_empty_page_regions_full
        rw [hb]
    · intro hs
      simp at hs
  | some b =>
    constructor
    · intro hn
      simp at hn
    · intro _
      constructor
      · unfold find_empty_page_regions_full
        rw [hb]
        rfl
      · unfold process_docx_unpack find_empty_page_regions_full
        rw [hb]
        rfl

theorem C9_result_arity_witness :
    (find_empty_page_regions_full (Elem.mk (wTag "document") [] none []) 15).arity = 4 ∧
    process_docx_unpack (Elem.mk (wTag "document") [] none []) 15 = none ∧
    (find_empty_page_regions_full (wEl "document" [] [wEl "body" [] []]) 15).arity = 5 ∧
    (process_docx_unpack (wEl "document" [] [wEl "body" [] []]) 15).isSome = true := by
  refine ⟨?_, ?_, ?_, ?_⟩
  · exact ((C9_result_arity (Elem.mk (wTag "document") [] none []) 15).1 (by decide)).1
  · exact ((C9_result_arity (Elem.mk (wTag "document") [] none []) 15).1 (by decide)).2
  · exact ((C9_result_arity (wEl "document" [] [wEl "body" [] []]) 15).2 (by decide)).1
  · exact ((C9_result_arity (wEl "document" [] [wEl "body" [] []]) 15).2 (by decide)).2

/-- Claim C5, failing input: a source document that declares the binding
`foo -> urn:foo` without using it anywhere in the body.  Parsing discards
the declaration, the rewrite step registers only the fixed prefix table,
and serialization emits declarations only for namespace URIs in use, so
the no-op rewrite (no region deleted, body unchanged) drops the
`foo -> urn:foo` binding, contradicting the claim that every source
prefix-to-URI binding, even an unused one, survives the rewrite. -/
theorem C5_namespace_drop :
    ("foo", "urn:foo") ∈ [("w", wNS), ("foo", "urn:foo")] ∧
    delete_empty_regions ([] : List Region)
        (Elem.children (wEl "document" [] [wEl "body" [] []]))
        (Elem.children (wEl "document" [] [wEl "body" [] []])) =
      Elem.children (wEl "document" [] [wEl "body" [] []]) ∧
    rewriteNamespaceDecls namespaces_to_register (wEl "document" [] [wEl "body" [] []]) =
      [("w", wNS)] ∧
    ("foo", "urn:foo") ∉
      rewriteNamespaceDecls namespaces_to_register (wEl "document" [] [wEl "body" [] []]) := by
  refine ⟨by decide, by decide, by decide, by decide⟩
